import Mathlib

/-!
Verification development for the Iceberg Explorer frontend core:
the partition aggregation (PartitionView), the snapshot graph
reconstruction (IcebergTree), the snapshot comparison view guard
(SnapshotComparisonView), the statistics view (StatsView), the typed
HTTP boundary (types/index.ts, IcebergTree GraphData), and the snapshot
diff engine described in the spec (backend not present in the frontend
sources; modelled from the spec where noted).

JavaScript values are embedded shallowly: JS strings are `String`,
JS arrays are `List`, JS objects/records are ordered association lists
(insertion order preserved, as in JS), `Map` is an insertion-ordered
association list, nullable values are `Option`, and integer-valued
numeric fields are `Nat`/`Int`.  Where IEEE-754 double rounding matters
(64-bit ids carried in `number`-typed fields) it is made explicit via
`jsNumberOfNat`; where division by zero matters (StatsView averages) JS
number semantics are modelled by the `JsNum` type.
-/

namespace IcebergExplorer

/-! ## Decimal digit strings

`JSON.stringify` renders integer JS numbers in decimal; snapshot ids are
carried as decimal strings.  `natDigitsAux` is fuel-based so that it
reduces in the kernel (the fuel `n + 1` always suffices). -/

/-- The decimal digit character for `d < 10`. -/
def digitChar (d : Nat) : Char := Char.ofNat (48 + d)

/-- Decimal digits of `n`, most significant first; `fuel` bounds the recursion. -/
def natDigitsAux : Nat → Nat → List Char
  | 0, _ => []
  | fuel + 1, n => if n < 10 then [digitChar n] else natDigitsAux fuel (n / 10) ++ [digitChar (n % 10)]

/-- Decimal digits of `n`, most significant first. -/
def natDigits (n : Nat) : List Char := natDigitsAux (n + 1) n

/-- Decimal rendering of an integer, with a leading minus sign when negative. -/
def intChars (i : Int) : List Char :=
  if i < 0 then '-' :: natDigits (-i).toNat else natDigits i.toNat

/-- Value of a digit character. -/
def charVal (c : Char) : Nat := c.toNat - 48

/-- Evaluate a list of decimal digit characters to the number they denote. -/
def decVal (l : List Char) : Nat := l.foldl (fun a c => 10 * a + charVal c) 0

/-! ## Partition values and `JSON.stringify`

`DataFile.partition` is `Record<string, unknown>` in the source; we model
the values as JSON scalars (strings and integers) and the record as an
insertion-ordered association list.  `stringifyPartition` mirrors
`JSON.stringify` on such records: keys kept in insertion order, string
values quoted with `"` and `\` escaped, integer values in decimal. -/

/-- A JSON scalar partition value. -/
inductive JVal where
  | str (s : String)
  | int (i : Int)
deriving DecidableEq

/-- A partition tuple: the decoded JS record, keys in insertion order. -/
abbrev Partition := List (String × JVal)

/-- JSON string escaping for one character (quote and backslash). -/
def escapeChar (c : Char) : List Char :=
  if c = '"' ∨ c = '\\' then ['\\', c] else [c]

/-- JSON string escaping for a character list. -/
def escapeChars (l : List Char) : List Char := l.flatMap escapeChar

/-- Serialize one JSON scalar. -/
def serVal : JVal → List Char
  | .str s => '"' :: escapeChars s.data ++ ['"']
  | .int i => intChars i

/-- Serialize one `"key":value` pair. -/
def serPair (p : String × JVal) : List Char :=
  '"' :: escapeChars p.1.data ++ '"' :: ':' :: serVal p.2

/-- Serialize the comma-separated field list of a JSON object. -/
def serFields : List (String × JVal) → List Char
  | [] => []
  | [p] => serPair p
  | p :: ps => serPair p ++ ',' :: serFields ps

/-- `JSON.stringify` on a partition record (the bucket key in PartitionView). -/
def stringifyPartition (p : Partition) : String :=
  ⟨'{' :: serFields p ++ ['}']⟩

/-! ## PartitionView aggregation (src/unnamed/part_007)

The component groups `metadata.dataFiles` into a
`Map<string, {partition, fileCount, recordCount, totalSize}>` keyed by
`JSON.stringify(file.partition)`, then takes `Array.from(map.values())`.
A JS `Map` preserves insertion order; we model it as an ordered
association list. -/

/-- A decoded data file (the fields PartitionView and the diff engine read). -/
structure DataFile where
  filePath : String
  fileFormat : String
  partition : Partition
  recordCount : Nat
  fileSizeInBytes : Nat
deriving DecidableEq

/-- One aggregated partition bucket. -/
structure PartitionBucket where
  partition : Partition
  fileCount : Nat
  recordCount : Nat
  totalSize : Nat
deriving DecidableEq

/-- One step of the `metadata.dataFiles.forEach` loop of PartitionView:
update the bucket for the file's `JSON.stringify` key, or append a new one. -/
def addFile (m : List (String × PartitionBucket)) (file : DataFile) :
    List (String × PartitionBucket) :=
  let partitionKey := stringifyPartition file.partition
  if (m.find? (fun e => e.1 = partitionKey)).isSome then
    m.map (fun e =>
      if e.1 = partitionKey then
        (e.1, { e.2 with
                fileCount := e.2.fileCount + 1,
                recordCount := e.2.recordCount + file.recordCount,
                totalSize := e.2.totalSize + file.fileSizeInBytes })
      else e)
  else
    m ++ [(partitionKey,
      { partition := file.partition, fileCount := 1,
        recordCount := file.recordCount, totalSize := file.fileSizeInBytes })]

/-- The `partitionMap` of PartitionView after the `forEach` loop. -/
def partitionMap (files : List DataFile) : List (String × PartitionBucket) :=
  files.foldl addFile []

/-- `Array.from(partitionMap.values())`: the produced buckets, in insertion order. -/
def partitionData (files : List DataFile) : List PartitionBucket :=
  (partitionMap files).map (·.2)

/-- The bucket key of a data file. -/
def fileKey (f : DataFile) : String := stringifyPartition f.partition

/-! ## Specification-side grouping

`firstDedup` keeps the first occurrence of every element, in first-seen
order — the key order of a JS `Map` filled by insertion. -/

/-- Remove duplicates keeping first occurrences, preserving order. -/
def firstDedup {α : Type _} [DecidableEq α] : List α → List α
  | [] => []
  | x :: xs => x :: firstDedup (xs.filter (fun y => y ≠ x))
termination_by l => l.length
decreasing_by
  simp only [List.length_cons]
  exact Nat.lt_succ_of_le (List.length_filter_le _ _)

/-- Number of files with bucket key `k`. -/
def keyCount (files : List DataFile) (k : String) : Nat :=
  (files.filter (fun f => fileKey f = k)).length

/-- Summed record count of files with bucket key `k`. -/
def keyRecordSum (files : List DataFile) (k : String) : Nat :=
  ((files.filter (fun f => fileKey f = k)).map (·.recordCount)).sum

/-- Summed byte size of files with bucket key `k`. -/
def keySizeSum (files : List DataFile) (k : String) : Nat :=
  ((files.filter (fun f => fileKey f = k)).map (·.fileSizeInBytes)).sum

/-- Partition tuple stored in the bucket for key `k`: that of the first file with the key. -/
def keyPartition (files : List DataFile) (k : String) : Partition :=
  match files.find? (fun f => fileKey f = k) with
  | some f => f.partition
  | none => []

/-- The bucket the aggregation should produce for key `k`. -/
def bucketFor (files : List DataFile) (k : String) : PartitionBucket :=
  { partition := keyPartition files k, fileCount := keyCount files k,
    recordCount := keyRecordSum files k, totalSize := keySizeSum files k }

/-! ## A JSON object parser, used to prove `stringifyPartition` injective

The bucket-key equality of PartitionView is `JSON.stringify` string
equality; to relate it to equality of partition tuples we prove the
serializer injective by exhibiting a parser that round-trips it. -/

/-- Decide whether a character is a decimal digit. -/
def isDigitCh (c : Char) : Bool := decide (48 ≤ c.toNat ∧ c.toNat ≤ 57)

/-- Parse the body of a JSON string up to its closing quote, undoing `escapeChars`. -/
def parseEsc : List Char → Option (List Char × List Char)
  | [] => none
  | c :: rest =>
      if c = '\\' then
        match rest with
        | [] => none
        | c2 :: rest2 => (parseEsc rest2).map (fun r => (c2 :: r.1, r.2))
      else if c = '"' then some ([], rest)
      else (parseEsc rest).map (fun r => (c :: r.1, r.2))

/-- Parse one JSON scalar (string or integer). -/
def parseVal (l : List Char) : Option (JVal × List Char) :=
  match l with
  | [] => none
  | c :: rest =>
      if c = '"' then (parseEsc rest).map (fun r => (JVal.str ⟨r.1⟩, r.2))
      else if c = '-' then
        let ds := rest.takeWhile isDigitCh
        if ds = [] then none
        else some (JVal.int (-(decVal ds : Nat)), rest.dropWhile isDigitCh)
      else
        let ds := (c :: rest).takeWhile isDigitCh
        if ds = [] then none
        else some (JVal.int (decVal ds), (c :: rest).dropWhile isDigitCh)

/-- Parse one `"key":value` pair. -/
def parsePair (l : List Char) : Option ((String × JVal) × List Char) :=
  match l with
  | [] => none
  | c :: rest =>
      if c = '"' then
        (parseEsc rest).bind (fun r =>
          match r.2 with
          | [] => none
          | c2 :: r2 =>
              if c2 = ':' then (parseVal r2).map (fun v => ((⟨r.1⟩, v.1), v.2))
              else none)
      else none

/-- Parse a nonempty comma-separated field list; `fuel` bounds the recursion. -/
def parseFields : Nat → List Char → Option (List (String × JVal) × List Char)
  | 0, _ => none
  | fuel + 1, l =>
      (parsePair l).bind (fun p =>
        match p.2 with
        | [] => some ([p.1], [])
        | c :: r2 =>
            if c = ',' then (parseFields fuel r2).map (fun ps => (p.1 :: ps.1, ps.2))
            else some ([p.1], c :: r2))

/-- Parse a JSON object of scalar fields. -/
def parseObj (l : List Char) : Option (Partition × List Char) :=
  match l with
  | [] => none
  | c :: rest =>
      if c = '{' then
        match rest with
        | [] => none
        | c2 :: r2 =>
            if c2 = '}' then some ([], r2)
            else
              (parseFields rest.length rest).bind (fun ps =>
                match ps.2 with
                | [] => none
                | c3 :: r3 => if c3 = '}' then some (ps.1, r3) else none)
      else none

/-! ### Digit string lemmas -/

theorem charVal_digitChar {d : Nat} (h : d < 10) : charVal (digitChar d) = d := by
  interval_cases d <;> decide

theorem isDigitCh_digitChar {d : Nat} (h : d < 10) : isDigitCh (digitChar d) = true := by
  interval_cases d <;> decide

theorem decVal_append_digit (l : List Char) (c : Char) :
    decVal (l ++ [c]) = 10 * decVal l + charVal c := by
  simp [decVal, List.foldl_append]

theorem natDigitsAux_ne_nil {fuel n : Nat} (h : n < fuel) : natDigitsAux fuel n ≠ [] := by
  cases fuel with
  | zero => omega
  | succ f =>
      simp only [natDigitsAux]
      split <;> simp

theorem mem_natDigitsAux_digit {fuel n : Nat} (h : n < fuel) :
    ∀ c ∈ natDigitsAux fuel n, isDigitCh c = true := by
  induction fuel generalizing n with
  | zero => omega
  | succ f ih =>
      intro c hc
      simp only [natDigitsAux] at hc
      split at hc
      · rcases List.mem_singleton.mp hc with rfl
        exact isDigitCh_digitChar (by omega)
      · rename_i hn
        rcases List.mem_append.mp hc with hc | hc
        · exact ih (by omega : n / 10 < f) c hc
        · rcases List.mem_singleton.mp hc with rfl
          exact isDigitCh_digitChar (Nat.mod_lt _ (by omega))

theorem decVal_natDigitsAux {fuel n : Nat} (h : n < fuel) :
    decVal (natDigitsAux fuel n) = n := by
  induction fuel generalizing n with
  | zero => omega
  | succ f ih =>
      simp only [natDigitsAux]
      split
      · rename_i hn
        simpa [decVal] using charVal_digitChar hn
      · rename_i hn
        rw [decVal_append_digit, ih (by omega : n / 10 < f),
          charVal_digitChar (Nat.mod_lt _ (by omega))]
        omega

theorem decVal_natDigits (n : Nat) : decVal (natDigits n) = n :=
  decVal_natDigitsAux (Nat.lt_succ_self n)

theorem natDigits_ne_nil (n : Nat) : natDigits n ≠ [] :=
  natDigitsAux_ne_nil (Nat.lt_succ_self n)

theorem mem_natDigits_digit (n : Nat) : ∀ c ∈ natDigits n, isDigitCh c = true :=
  mem_natDigitsAux_digit (Nat.lt_succ_self n)

theorem digit_not_special {c : Char} (h : isDigitCh c = true) :
    c ≠ '"' ∧ c ≠ '\\' ∧ c ≠ '-' ∧ c ≠ '{' := by
  refine ⟨?_, ?_, ?_, ?_⟩ <;> rintro rfl <;> simp [isDigitCh] at h

/-! ### Escape round-trip -/

theorem parseEsc_quote (r : List Char) : parseEsc ('"' :: r) = some ([], r) := by
  unfold parseEsc; simp

theorem parseEsc_backslash (c : Char) (r : List Char) :
    parseEsc ('\\' :: c :: r) = (parseEsc r).map (fun p => (c :: p.1, p.2)) := by
  unfold parseEsc; simp; rw [← parseEsc.eq_def]

theorem parseEsc_other {c : Char} (h1 : c ≠ '"') (h2 : c ≠ '\\') (r : List Char) :
    parseEsc (c :: r) = (parseEsc r).map (fun p => (c :: p.1, p.2)) := by
  unfold parseEsc; simp [h1, h2]; rw [← parseEsc.eq_def]

theorem parseEsc_escape (l r : List Char) :
    parseEsc (escapeChars l ++ '"' :: r) = some (l, r) := by
  induction l with
  | nil => simpa [escapeChars] using parseEsc_quote r
  | cons c l ih =>
      by_cases hc : c = '"' ∨ c = '\\'
      · have hesc : escapeChars (c :: l) = '\\' :: c :: escapeChars l := by
          simp [escapeChars, escapeChar, hc]
        rw [hesc, List.cons_append, List.cons_append, parseEsc_backslash, ih]
        rfl
      · obtain ⟨h1, h2⟩ := not_or.mp hc
        have hesc : escapeChars (c :: l) = c :: escapeChars l := by
          simp [escapeChars, escapeChar, hc]
        rw [hesc, List.cons_append, parseEsc_other h1 h2, ih]
        rfl

/-! ### Scalar, pair, field-list and object round-trips -/

theorem takeWhile_all_append {p : Char → Bool} {l r : List Char}
    (hl : ∀ c ∈ l, p c = true) (hr : ∀ c ∈ r.head?, p c = false) :
    (l ++ r).takeWhile p = l ∧ (l ++ r).dropWhile p = r := by
  induction l with
  | nil =>
      cases r with
      | nil => simp
      | cons c r' =>
          have : p c = false := hr c (by simp)
          simp [List.takeWhile, List.dropWhile, this]
  | cons c l ih =>
      have hc : p c = true := hl c (by simp)
      have ih' := ih (fun d hd => hl d (by simp [hd]))
      simp [List.takeWhile, List.dropWhile, hc, ih'.1, ih'.2]

theorem parseVal_quote (r : List Char) :
    parseVal ('"' :: r) = (parseEsc r).map (fun p => (JVal.str ⟨p.1⟩, p.2)) := by
  unfold parseVal; simp

theorem parseVal_minus (r : List Char) :
    parseVal ('-' :: r) =
      (if r.takeWhile isDigitCh = [] then none
       else some (JVal.int (-(decVal (r.takeWhile isDigitCh) : Nat)),
         r.dropWhile isDigitCh)) := by
  unfold parseVal; simp

theorem parseVal_other {c : Char} (h1 : c ≠ '"') (h2 : c ≠ '-') (r : List Char) :
    parseVal (c :: r) =
      (if (c :: r).takeWhile isDigitCh = [] then none
       else some (JVal.int (decVal ((c :: r).takeWhile isDigitCh)),
         (c :: r).dropWhile isDigitCh)) := by
  unfold parseVal; simp [h1, h2]

theorem parseVal_ser (v : JVal) (r : List Char)
    (hr : ∀ c ∈ r.head?, isDigitCh c = false) :
    parseVal (serVal v ++ r) = some (v, r) := by
  cases v with
  | str s =>
      have key : serVal (JVal.str s) ++ r = '"' :: (escapeChars s.data ++ '"' :: r) := by
        simp [serVal]
      rw [key, parseVal_quote, parseEsc_escape]
      rfl
  | int i =>
      by_cases hi : i < 0
      · show parseVal (intChars i ++ r) = _
        rw [intChars, if_pos hi, List.cons_append, parseVal_minus]
        obtain ⟨ht, hd⟩ := takeWhile_all_append (mem_natDigits_digit ((-i).toNat)) hr
        rw [ht, hd, if_neg (natDigits_ne_nil _), decVal_natDigits]
        have : -(((-i).toNat : Nat) : Int) = i := by omega
        rw [this]
      · show parseVal (intChars i ++ r) = _
        rw [intChars, if_neg hi]
        obtain ⟨d0, ds, h0⟩ := List.exists_cons_of_ne_nil (natDigits_ne_nil i.toNat)
        have hdig : isDigitCh d0 = true := mem_natDigits_digit i.toNat d0 (by rw [h0]; simp)
        obtain ⟨hq, _, hm, _⟩ := digit_not_special hdig
        rw [h0, List.cons_append, parseVal_other hq hm]
        rw [← List.cons_append, ← h0]
        obtain ⟨ht, hd⟩ := takeWhile_all_append (mem_natDigits_digit i.toNat) hr
        rw [ht, hd, if_neg (natDigits_ne_nil _), decVal_natDigits]
        have : ((i.toNat : Nat) : Int) = i := by omega
        rw [this]

theorem parsePair_quote (r : List Char) :
    parsePair ('"' :: r) = (parseEsc r).bind (fun p =>
      match p.2 with
      | [] => none
      | c2 :: r2 =>
          if c2 = ':' then (parseVal r2).map (fun v => ((⟨p.1⟩, v.1), v.2))
          else none) := by
  unfold parsePair; simp

theorem parsePair_ser (p : String × JVal) (r : List Char)
    (hr : ∀ c ∈ r.head?, isDigitCh c = false) :
    parsePair (serPair p ++ r) = some (p, r) := by
  show parsePair ('"' :: (escapeChars p.1.data ++ '"' :: ':' :: serVal p.2) ++ r) = _
  rw [List.cons_append, parsePair_quote, List.append_assoc, List.cons_append,
    List.cons_append, parseEsc_escape]
  simp only [Option.some_bind]
  rw [if_pos trivial, parseVal_ser p.2 r hr]
  rfl

theorem serFields_cons {p : String × JVal} {ps : List (String × JVal)} (h : ps ≠ []) :
    serFields (p :: ps) = serPair p ++ ',' :: serFields ps := by
  cases ps with
  | nil => exact absurd rfl h
  | cons q qs => rfl

theorem serFields_head {p : String × JVal} (ps : List (String × JVal)) :
    ∃ t, serFields (p :: ps) = '"' :: t := by
  cases ps with
  | nil => exact ⟨_, rfl⟩
  | cons q qs => exact ⟨_, rfl⟩

theorem serPair_length_pos (p : String × JVal) : 1 ≤ (serPair p).length := by
  simp [serPair]

theorem serFields_length_ge (ps : List (String × JVal)) :
    ps.length ≤ (serFields ps).length := by
  induction ps with
  | nil => simp [serFields]
  | cons p ps ih =>
      cases ps with
      | nil => simpa [serFields] using serPair_length_pos p
      | cons q qs =>
          rw [serFields_cons (by simp)]
          have := serPair_length_pos p
          simp only [List.length_cons] at ih
          simp only [List.length_append, List.length_cons]
          omega

theorem parseFields_ser (ps : List (String × JVal)) (hne : ps ≠ []) :
    ∀ (fuel : Nat), ps.length ≤ fuel →
    ∀ (r : List Char), (∀ c ∈ r.head?, isDigitCh c = false ∧ c ≠ ',') →
    parseFields fuel (serFields ps ++ r) = some (ps, r) := by
  induction ps with
  | nil => exact absurd rfl hne
  | cons p ps ih =>
      intro fuel hf r hr
      cases fuel with
      | zero => simp at hf
      | succ f =>
          cases ps with
          | nil =>
              show parseFields (f + 1) (serPair p ++ r) = _
              rw [parseFields, parsePair_ser p r (fun c hc => (hr c hc).1)]
              simp only [Option.some_bind]
              cases r with
              | nil => rfl
              | cons c r2 =>
                  have hc : c ≠ ',' := (hr c (by simp)).2
                  simp [hc]
          | cons q qs =>
              rw [serFields_cons (by simp), List.append_assoc, List.cons_append,
                parseFields, parsePair_ser p _ (by simp [isDigitCh])]
              simp only [Option.some_bind]
              rw [if_pos trivial,
                ih (by simp) f (by simpa using Nat.succ_le_succ_iff.mp hf) r hr]
              rfl

theorem parseObj_cons_ne {c2 : Char} (h : c2 ≠ '}') (r2 : List Char) :
    parseObj ('{' :: c2 :: r2) =
      (parseFields (c2 :: r2).length (c2 :: r2)).bind (fun ps =>
        match ps.2 with
        | [] => none
        | c3 :: r3 => if c3 = '}' then some (ps.1, r3) else none) := by
  unfold parseObj; simp [h]

theorem parseObj_ser (ps : Partition) (r : List Char) :
    parseObj ('{' :: (serFields ps ++ '}' :: r)) = some (ps, r) := by
  cases ps with
  | nil =>
      show parseObj ('{' :: '}' :: r) = _
      unfold parseObj; simp
  | cons p ps0 =>
      obtain ⟨t, ht⟩ := @serFields_head p ps0
      have hlen : (p :: ps0).length ≤ (serFields (p :: ps0) ++ '}' :: r).length := by
        have := serFields_length_ge (p :: ps0)
        simp only [List.length_cons] at this
        simp only [List.length_append, List.length_cons]
        omega
      have key : serFields (p :: ps0) ++ '}' :: r = '"' :: (t ++ '}' :: r) := by
        rw [ht]; simp
      rw [key, parseObj_cons_ne (by decide), ← key,
        parseFields_ser (p :: ps0) (by simp) _ hlen ('}' :: r)
          (by intro c hc; simp at hc; subst hc; exact ⟨by decide, by decide⟩)]
      rfl

theorem stringifyPartition_injective : Function.Injective stringifyPartition := by
  intro p q h
  have hd : '{' :: serFields p ++ ['}'] = '{' :: serFields q ++ ['}'] :=
    congrArg String.data h
  have hp := parseObj_ser p []
  have hq := parseObj_ser q []
  rw [show ('}' :: ([] : List Char)) = ['}'] from rfl] at hp hq
  rw [show ('{' :: serFields p ++ ['}'] : List Char) =
    '{' :: (serFields p ++ ['}']) from rfl] at hd
  rw [show ('{' :: serFields q ++ ['}'] : List Char) =
    '{' :: (serFields q ++ ['}']) from rfl] at hd
  rw [hd, hq] at hp
  simp only [Option.some.injEq, Prod.mk.injEq] at hp
  exact hp.1.symm

/-! ### `firstDedup` lemmas -/

theorem firstDedup_nil {α : Type _} [DecidableEq α] : firstDedup ([] : List α) = [] := by
  rw [firstDedup]

theorem firstDedup_cons {α : Type _} [DecidableEq α] (x : α) (xs : List α) :
    firstDedup (x :: xs) = x :: firstDedup (xs.filter (fun y => y ≠ x)) := by
  rw [firstDedup]

theorem mem_firstDedup {α : Type _} [DecidableEq α] {a : α} :
    ∀ {l : List α}, a ∈ firstDedup l ↔ a ∈ l := by
  have key : ∀ (n : Nat) (l : List α), l.length ≤ n → (a ∈ firstDedup l ↔ a ∈ l) := by
    intro n
    induction n with
    | zero =>
        intro l h
        have : l = [] := List.length_eq_zero.mp (Nat.le_zero.mp h)
        subst this
        simp [firstDedup_nil]
    | succ n ih =>
        intro l h
        cases l with
        | nil => simp [firstDedup_nil]
        | cons x xs =>
            rw [firstDedup_cons]
            by_cases hax : a = x
            · subst hax; simp
            · have hlen : (xs.filter (fun y => y ≠ x)).length ≤ n := by
                have := List.length_filter_le (fun y => decide (y ≠ x)) xs
                simp only [List.length_cons] at h
                omega
              rw [List.mem_cons, List.mem_cons, ih _ hlen, List.mem_filter]
              simp [hax]
  intro l
  exact key l.length l (le_refl _)

theorem firstDedup_concat {α : Type _} [DecidableEq α] (l : List α) (x : α) :
    firstDedup (l ++ [x]) = if x ∈ l then firstDedup l else firstDedup l ++ [x] := by
  have key : ∀ (n : Nat) (l : List α), l.length ≤ n →
      firstDedup (l ++ [x]) = if x ∈ l then firstDedup l else firstDedup l ++ [x] := by
    intro n
    induction n with
    | zero =>
        intro l h
        have : l = [] := List.length_eq_zero.mp (Nat.le_zero.mp h)
        subst this
        simp [firstDedup_nil, firstDedup_cons]
    | succ n ih =>
        intro l h
        cases l with
        | nil => simp [firstDedup_nil, firstDedup_cons]
        | cons y ys =>
            rw [List.cons_append, firstDedup_cons, List.filter_append]
            by_cases hxy : x = y
            · subst hxy
              have : List.filter (fun z => decide (z ≠ x)) [x] = [] := by simp
              rw [this, List.append_nil, ← firstDedup_cons]
              simp
            · have hsing : List.filter (fun z => decide (z ≠ y)) [x] = [x] := by
                simp [hxy]
              have hlen : (ys.filter (fun z => z ≠ y)).length ≤ n := by
                have := List.length_filter_le (fun z => decide (z ≠ y)) ys
                simp only [List.length_cons] at h
                omega
              rw [hsing, ih _ hlen]
              have hmem : x ∈ ys.filter (fun z => z ≠ y) ↔ x ∈ ys := by
                simp [List.mem_filter, hxy]
              by_cases hx : x ∈ ys
              · rw [if_pos (hmem.mpr hx), if_pos (by simp [hx]), firstDedup_cons]
              · rw [if_neg (fun hc => hx (hmem.mp hc)),
                  if_neg (by simp [hx, hxy]), firstDedup_cons, List.cons_append]
  exact key l.length l (le_refl _)

/-! ### Aggregation step lemmas -/

/-- The bucket update of one `forEach` iteration when the key is present. -/
def bumpBucket (b : PartitionBucket) (f : DataFile) : PartitionBucket :=
  { b with fileCount := b.fileCount + 1, recordCount := b.recordCount + f.recordCount,
           totalSize := b.totalSize + f.fileSizeInBytes }

theorem fileKey_def (f : DataFile) : fileKey f = stringifyPartition f.partition := rfl

theorem bucketFor_concat_ne {k : String} {f : DataFile} (files : List DataFile)
    (hk : ¬ fileKey f = k) : bucketFor (files ++ [f]) k = bucketFor files k := by
  have hfilter : (files ++ [f]).filter (fun g => fileKey g = k) =
      files.filter (fun g => fileKey g = k) := by
    rw [List.filter_append]
    simp [hk]
  have hfind : (files ++ [f]).find? (fun g => fileKey g = k) =
      files.find? (fun g => fileKey g = k) := by
    rw [List.find?_append]
    have : List.find? (fun g => decide (fileKey g = k)) [f] = none := by simp [hk]
    rw [this]
    cases files.find? (fun g => decide (fileKey g = k)) <;> rfl
  simp only [bucketFor, keyCount, keyRecordSum, keySizeSum, keyPartition, hfilter, hfind]

theorem bucketFor_concat_mem {f : DataFile} (files : List DataFile)
    (hmem : fileKey f ∈ files.map fileKey) :
    bucketFor (files ++ [f]) (fileKey f) = bumpBucket (bucketFor files (fileKey f)) f := by
  have hfilter : (files ++ [f]).filter (fun g => fileKey g = fileKey f) =
      files.filter (fun g => fileKey g = fileKey f) ++ [f] := by
    rw [List.filter_append]
    simp
  obtain ⟨g, hg, hgk⟩ := List.mem_map.mp hmem
  have hsome : (files.find? (fun g => fileKey g = fileKey f)).isSome := by
    rw [List.find?_isSome]
    exact ⟨g, hg, by simp [hgk]⟩
  obtain ⟨g0, hg0⟩ := Option.isSome_iff_exists.mp hsome
  have hfind : (files ++ [f]).find? (fun g => fileKey g = fileKey f) = some g0 := by
    rw [List.find?_append, hg0]
    rfl
  simp only [bucketFor, bumpBucket, keyCount, keyRecordSum, keySizeSum, keyPartition,
    hfilter, hfind, hg0, List.length_append, List.map_append, List.sum_append,
    List.length_cons, List.length_nil, List.map_cons, List.map_nil, List.sum_cons,
    List.sum_nil, PartitionBucket.mk.injEq]
  refine ⟨trivial, by simp, by simp⟩

theorem bucketFor_concat_new {f : DataFile} (files : List DataFile)
    (hmem : fileKey f ∉ files.map fileKey) :
    bucketFor (files ++ [f]) (fileKey f) =
      { partition := f.partition, fileCount := 1,
        recordCount := f.recordCount, totalSize := f.fileSizeInBytes } := by
  have hnone : ∀ g ∈ files, ¬ (fileKey g = fileKey f) := by
    intro g hg hc
    exact hmem (hc ▸ List.mem_map_of_mem fileKey hg)
  have hfilter : (files ++ [f]).filter (fun g => fileKey g = fileKey f) = [f] := by
    rw [List.filter_append]
    have h1 : files.filter (fun g => decide (fileKey g = fileKey f)) = [] :=
      List.filter_eq_nil_iff.mpr (by simpa using hnone)
    rw [h1]
    simp
  have hfind : (files ++ [f]).find? (fun g => fileKey g = fileKey f) = some f := by
    rw [List.find?_append]
    have h1 : files.find? (fun g => decide (fileKey g = fileKey f)) = none :=
      List.find?_eq_none.mpr (by simpa using hnone)
    rw [h1]
    simp
  simp only [bucketFor, keyCount, keyRecordSum, keySizeSum, keyPartition, hfilter, hfind,
    List.length_cons, List.length_nil, List.map_cons, List.map_nil, List.sum_cons,
    List.sum_nil, PartitionBucket.mk.injEq]
  refine ⟨trivial, by simp, by simp⟩

/-! ### The `partitionMap` characterization -/

theorem partitionMap_eq (files : List DataFile) :
    partitionMap files =
      (firstDedup (files.map fileKey)).map (fun k => (k, bucketFor files k)) := by
  induction files using List.reverseRecOn with
  | nil => simp [partitionMap, firstDedup_nil]
  | append_singleton files f ih =>
      have h1 : partitionMap (files ++ [f]) = addFile (partitionMap files) f := by
        simp [partitionMap, List.foldl_append]
      rw [h1, ih, List.map_append]
      simp only [List.map_cons, List.map_nil]
      rw [firstDedup_concat]
      by_cases hmem : fileKey f ∈ files.map fileKey
      · rw [if_pos hmem]
        have hfind : (((firstDedup (files.map fileKey)).map
            (fun k => (k, bucketFor files k))).find?
            (fun e => e.1 = stringifyPartition f.partition)).isSome := by
          rw [List.find?_isSome]
          refine ⟨(fileKey f, bucketFor files (fileKey f)), ?_, by simp [fileKey_def]⟩
          exact List.mem_map_of_mem _ (mem_firstDedup.mpr hmem)
        rw [addFile]
        simp only [hfind, if_true, List.map_map]
        apply List.map_congr_left
        intro k hk
        by_cases hkf : k = fileKey f
        · subst hkf
          simp only [Function.comp_apply, ← fileKey_def, if_pos rfl, if_true,
            bucketFor_concat_mem files hmem, bumpBucket]
        · have : ¬ (k = stringifyPartition f.partition) := by
            rw [← fileKey_def]; exact hkf
          simp only [Function.comp_apply, this, if_false,
            bucketFor_concat_ne files (fun h => hkf h.symm)]
      · rw [if_neg hmem]
        have hfind : (((firstDedup (files.map fileKey)).map
            (fun k => (k, bucketFor files k))).find?
            (fun e => e.1 = stringifyPartition f.partition)).isSome = false := by
          rw [Bool.eq_false_iff]
          intro hc
          rw [List.find?_isSome] at hc
          obtain ⟨e, he, hek⟩ := hc
          obtain ⟨k, hk, rfl⟩ := List.mem_map.mp he
          simp only [decide_eq_true_eq] at hek
          apply hmem
          rw [fileKey_def, ← hek]
          exact mem_firstDedup.mp hk
        rw [addFile]
        simp only [hfind, Bool.false_eq_true, if_false, List.map_append, List.map_cons,
          List.map_nil]
        congr 1
        · apply List.map_congr_left
          intro k hk
          have hkf : ¬ (fileKey f = k) := by
            intro hc
            exact hmem (hc ▸ mem_firstDedup.mp hk)
          rw [bucketFor_concat_ne files hkf]
        · rw [← fileKey_def, bucketFor_concat_new files hmem]

/-! ### Counting lemmas for the bucket totals -/

theorem filter_length_partition {α : Type _} [DecidableEq α] (x : α) (xs : List α) :
    (xs.filter (fun y => y = x)).length + (xs.filter (fun y => y ≠ x)).length = xs.length := by
  induction xs with
  | nil => simp
  | cons y ys ih =>
      by_cases hyx : y = x <;> simp [List.filter_cons, hyx] at ih ⊢ <;> omega

theorem sum_firstDedup_counts {α : Type _} [DecidableEq α] (l : List α) :
    ((firstDedup l).map (fun k => (l.filter (fun s => s = k)).length)).sum = l.length := by
  have key : ∀ (n : Nat) (l : List α), l.length ≤ n →
      ((firstDedup l).map (fun k => (l.filter (fun s => s = k)).length)).sum = l.length := by
    intro n
    induction n with
    | zero =>
        intro l h
        have : l = [] := List.length_eq_zero.mp (Nat.le_zero.mp h)
        subst this
        simp [firstDedup_nil]
    | succ n ih =>
        intro l h
        cases l with
        | nil => simp [firstDedup_nil]
        | cons x xs =>
            rw [firstDedup_cons, List.map_cons, List.sum_cons]
            have hhead : ((x :: xs).filter (fun s => s = x)).length =
                (xs.filter (fun s => s = x)).length + 1 := by
              simp [List.filter_cons]
            have htail : ((firstDedup (xs.filter (fun y => y ≠ x))).map
                (fun k => ((x :: xs).filter (fun s => s = k)).length)).sum =
                (xs.filter (fun y => y ≠ x)).length := by
              have hcong : ∀ k ∈ firstDedup (xs.filter (fun y => y ≠ x)),
                  ((x :: xs).filter (fun s => s = k)).length =
                  ((xs.filter (fun y => y ≠ x)).filter (fun s => s = k)).length := by
                intro k hk
                have hkx : k ≠ x := by
                  have := mem_firstDedup.mp hk
                  simp only [List.mem_filter, decide_eq_true_eq] at this
                  simpa using this.2
                have h1 : ((x :: xs).filter (fun s => s = k)) =
                    xs.filter (fun s => s = k) := by
                  simp [List.filter_cons, Ne.symm hkx]
                have h2 : (xs.filter (fun y => y ≠ x)).filter (fun s => s = k) =
                    xs.filter (fun s => s = k) := by
                  rw [List.filter_filter]
                  apply List.filter_congr
                  intro a _
                  by_cases hak : a = k
                  · subst hak
                    simp [hkx]
                  · simp [hak]
                rw [h1, h2]
              rw [List.map_congr_left hcong]
              apply ih
              have := List.length_filter_le (fun y => decide (y ≠ x)) xs
              simp only [List.length_cons] at h
              omega
            rw [hhead, htail]
            have := filter_length_partition x xs
            simp only [List.length_cons]
            omega
  exact key l.length l (le_refl _)

theorem keyCount_eq_filter_map (files : List DataFile) (k : String) :
    keyCount files k = ((files.map fileKey).filter (fun s => s = k)).length := by
  rw [keyCount, List.filter_map, List.length_map]
  rfl

/-! ### Claim C4 -/

/-- C4: for every input list of data files, the sum of `fileCount` over all
partition buckets produced by PartitionView equals the total number of data
files aggregated. -/
theorem partitionData_fileCount_sum_eq_length (files : List DataFile) :
    ((partitionData files).map (·.fileCount)).sum = files.length := by
  rw [partitionData, partitionMap_eq, List.map_map, List.map_map]
  have hcong : (List.map (((fun b => b.fileCount) ∘ fun e => e.2) ∘
        fun k => (k, bucketFor files k)) (firstDedup (files.map fileKey))) =
      List.map (fun k => ((files.map fileKey).filter (fun s => s = k)).length)
        (firstDedup (files.map fileKey)) := by
    apply List.map_congr_left
    intro k _
    exact keyCount_eq_filter_map files k
  rw [hcong, sum_firstDedup_counts, List.length_map]

/-! ### Claim C1 (amended) and C3: bucket identity is serialized-tuple identity -/

theorem firstDedup_map_inj {α β : Type _} [DecidableEq α] [DecidableEq β]
    {g : α → β} (hg : Function.Injective g) (l : List α) :
    firstDedup (l.map g) = (firstDedup l).map g := by
  have key : ∀ (n : Nat) (l : List α), l.length ≤ n →
      firstDedup (l.map g) = (firstDedup l).map g := by
    intro n
    induction n with
    | zero =>
        intro l h
        have : l = [] := List.length_eq_zero.mp (Nat.le_zero.mp h)
        subst this
        simp [firstDedup_nil]
    | succ n ih =>
        intro l h
        cases l with
        | nil => simp [firstDedup_nil]
        | cons x xs =>
            rw [List.map_cons, firstDedup_cons, firstDedup_cons, List.map_cons]
            congr 1
            have hfilter : (xs.map g).filter (fun y => y ≠ g x) =
                (xs.filter (fun y => y ≠ x)).map g := by
              rw [List.filter_map]
              congr 1
              apply List.filter_congr
              intro a _
              simp only [Function.comp_apply, ne_eq, decide_not]
              congr 1
              exact decide_eq_decide.mpr ⟨fun hc => hg hc, fun hc => hc ▸ rfl⟩
            rw [hfilter]
            apply ih
            have := List.length_filter_le (fun y => decide (y ≠ x)) xs
            simp only [List.length_cons] at h
            omega
  exact key l.length l (le_refl _)

/-- C1 (amended): the PartitionView bucket key `JSON.stringify(file.partition)`
identifies partition tuples exactly up to equality of the ordered key-value
record: two partition tuples receive the same bucket key iff they are equal as
ordered lists of fields (same keys in the same insertion order, same values). -/
theorem stringify_bucket_key_iff_tuple_eq (p q : Partition) :
    stringifyPartition p = stringifyPartition q ↔ p = q :=
  ⟨fun h => stringifyPartition_injective h, fun h => h ▸ rfl⟩

/-- C1 counterexample: two data files with value-equal partition tuples built
in different key insertion orders receive different bucket keys, and the
aggregation puts them in two distinct buckets rather than one. -/
theorem stringify_key_order_counterexample :
    ([("a", JVal.int 1), ("b", JVal.int 2)] : Partition).Perm
      [("b", JVal.int 2), ("a", JVal.int 1)]
  ∧ stringifyPartition [("a", JVal.int 1), ("b", JVal.int 2)] ≠
      stringifyPartition [("b", JVal.int 2), ("a", JVal.int 1)]
  ∧ (partitionData
      [ { filePath := "f1", fileFormat := "parquet",
          partition := [("a", JVal.int 1), ("b", JVal.int 2)],
          recordCount := 1, fileSizeInBytes := 1 },
        { filePath := "f2", fileFormat := "parquet",
          partition := [("b", JVal.int 2), ("a", JVal.int 1)],
          recordCount := 1, fileSizeInBytes := 1 } ]).length = 2 :=
  ⟨List.Perm.swap _ _ _, by decide, by decide⟩

theorem keyPartition_of_mem {files : List DataFile} {p : Partition}
    (hp : p ∈ files.map (·.partition)) :
    keyPartition files (stringifyPartition p) = p := by
  have hpred : (fun f => decide (fileKey f = stringifyPartition p)) =
      (fun f => decide (f.partition = p)) := by
    funext f
    rw [decide_eq_decide]
    exact ⟨fun h => stringifyPartition_injective h, fun h => h ▸ rfl⟩
  obtain ⟨f0, hf0, hf0p⟩ := List.mem_map.mp hp
  have hsome : (files.find? (fun f => decide (f.partition = p))).isSome := by
    rw [List.find?_isSome]
    exact ⟨f0, hf0, by simp [hf0p]⟩
  obtain ⟨g, hg⟩ := Option.isSome_iff_exists.mp hsome
  have hgp : g.partition = p := by simpa using List.find?_some hg
  rw [keyPartition, hpred, hg]
  exact hgp

/-- C3: PartitionView outputs exactly one bucket per distinct partition tuple
(in first-occurrence order), and each bucket carries the number of files with
that tuple, the sum of their record counts, and the sum of their byte sizes. -/
theorem partitionData_buckets_exact (files : List DataFile) :
    (partitionData files).map (·.partition) = firstDedup (files.map (·.partition))
  ∧ ∀ b ∈ partitionData files,
      b.fileCount = (files.filter (fun f => f.partition = b.partition)).length
    ∧ b.recordCount =
        ((files.filter (fun f => f.partition = b.partition)).map (·.recordCount)).sum
    ∧ b.totalSize =
        ((files.filter (fun f => f.partition = b.partition)).map (·.fileSizeInBytes)).sum := by
  have hkeys : files.map fileKey = (files.map (·.partition)).map stringifyPartition := by
    rw [List.map_map]
    rfl
  constructor
  · rw [partitionData, partitionMap_eq, List.map_map, hkeys,
      firstDedup_map_inj stringifyPartition_injective]
    simp only [List.map_map]
    refine (List.map_congr_left ?_).trans (List.map_id _)
    intro p hp
    exact keyPartition_of_mem (mem_firstDedup.mp hp)
  · intro b hb
    rw [partitionData, partitionMap_eq, List.map_map] at hb
    obtain ⟨k, hk, hbk⟩ := List.mem_map.mp hb
    have hkmem : k ∈ files.map fileKey := mem_firstDedup.mp hk
    obtain ⟨f0, hf0, hf0k⟩ := List.mem_map.mp hkmem
    have hb2 : b = bucketFor files k := hbk.symm
    have hsome : (files.find? (fun f => decide (fileKey f = k))).isSome := by
      rw [List.find?_isSome]
      exact ⟨f0, hf0, by simp [hf0k]⟩
    obtain ⟨g, hg⟩ := Option.isSome_iff_exists.mp hsome
    have hgk : fileKey g = k := by simpa using List.find?_some hg
    have hbpart : b.partition = g.partition := by
      rw [hb2]
      show keyPartition files k = g.partition
      rw [keyPartition, hg]
    have hkey : k = stringifyPartition b.partition := by
      rw [hbpart, ← fileKey_def, hgk]
    have hpred : (fun f => decide (fileKey f = k)) =
        (fun f => decide (f.partition = b.partition)) := by
      funext f
      rw [decide_eq_decide, hkey, fileKey_def]
      exact ⟨fun h => stringifyPartition_injective h, fun h => h ▸ rfl⟩
    have hfilter : files.filter (fun f => fileKey f = k) =
        files.filter (fun f => f.partition = b.partition) := by
      rw [hpred]
    have hcount : b.fileCount = keyCount files k := by rw [hb2]; rfl
    have hrec : b.recordCount = keyRecordSum files k := by rw [hb2]; rfl
    have hsize : b.totalSize = keySizeSum files k := by rw [hb2]; rfl
    refine ⟨?_, ?_, ?_⟩
    · rw [hcount, keyCount, hfilter]
    · rw [hrec, keyRecordSum, hfilter]
    · rw [hsize, keySizeSum, hfilter]

/-- Concrete input for the C3 witness. -/
def c3Files : List DataFile :=
  [ { filePath := "p1", fileFormat := "parquet", partition := [("a", JVal.int 1)],
      recordCount := 10, fileSizeInBytes := 100 },
    { filePath := "p2", fileFormat := "parquet", partition := [("a", JVal.int 1)],
      recordCount := 20, fileSizeInBytes := 200 } ]

/-- The bucket PartitionView produces for `c3Files`. -/
def c3Bucket : PartitionBucket :=
  { partition := [("a", JVal.int 1)], fileCount := 2, recordCount := 30, totalSize := 300 }

/-- C3 witness: the per-bucket counts of `partitionData_buckets_exact`
evaluated on a concrete two-file input. -/
theorem partitionData_buckets_exact_witness :
    c3Bucket.fileCount = (c3Files.filter (fun f => f.partition = c3Bucket.partition)).length
  ∧ c3Bucket.recordCount =
      ((c3Files.filter (fun f => f.partition = c3Bucket.partition)).map (·.recordCount)).sum
  ∧ c3Bucket.totalSize =
      ((c3Files.filter (fun f => f.partition = c3Bucket.partition)).map (·.fileSizeInBytes)).sum :=
  (partitionData_buckets_exact c3Files).2 c3Bucket (by decide)

/-! ## IcebergTree snapshot graph (src/components/IcebergTree.tsx)

The `rootNode` useMemo attaches snapshots to metadata nodes: the latest
metadata node gets `data.snapshots` unchanged; a historical node with a
`currentSnapshotId` gets the snapshots whose ids are collected by the
bounded backward `while` loop over `parentId` links (at most 1000
iterations); then the attached snapshots are sorted ascending by
`new Date(timestamp).getTime()`, a missing timestamp counting as 0.
The parsed epoch-millisecond value of the nullable timestamp string is
modelled as `Option Nat`. -/

/-- A snapshot of the `GraphData` payload (the fields the tree logic reads). -/
structure GSnapshot where
  snapshotId : String
  timestamp : Option Nat
  manifestList : String
  parentId : Option String
deriving DecidableEq

/-- The id set collected by the backward `while` loop: visit `currentId`,
look it up, follow `parentId`; stop on a missing snapshot or after the
iteration limit.  `fuel` is `1000 - iterations`. -/
def parentWalk (snaps : List GSnapshot) : Nat → Option String → List String
  | _, none => []
  | 0, some _ => []
  | fuel + 1, some id =>
      match snaps.find? (fun s => s.snapshotId = id) with
      | none => [id]
      | some s => id :: parentWalk snaps fuel s.parentId

/-- Which snapshots the tree attaches to a metadata node
(`snapshotsForThisMetadata` in the source): all of them for the latest
node, the walk-reachable ones for a historical node. -/
def snapshotsForMetadata (snapshots : List GSnapshot) (isLatest : Bool)
    (currentSnapshotId : Option String) : List GSnapshot :=
  if isLatest then snapshots
  else
    match currentSnapshotId with
    | none => []
    | some c =>
        snapshots.filter (fun s => decide (s.snapshotId ∈ parentWalk snapshots 1000 (some c)))

/-- The sort key of the snapshot comparator: parsed timestamp, or 0 when missing. -/
def tsKey (s : GSnapshot) : Nat := s.timestamp.getD 0

/-- `sortedSnapshots` of the source: stable sort ascending by timestamp. -/
def sortedSnapshots (l : List GSnapshot) : List GSnapshot :=
  l.mergeSort (fun a b => tsKey a ≤ tsKey b)

/-- The snapshot children rendered under one metadata node, in order. -/
def snapshotChildren (snapshots : List GSnapshot) (isLatest : Bool)
    (currentSnapshotId : Option String) : List GSnapshot :=
  sortedSnapshots (snapshotsForMetadata snapshots isLatest currentSnapshotId)

/-- One backward step along `parentId` links (`none` when the id is missing
or the found snapshot has no parent). -/
def parentStep (snaps : List GSnapshot) (id : String) : Option String :=
  (snaps.find? (fun s => s.snapshotId = id)).bind (·.parentId)

/-- The id reached after `n` backward steps from `c`. -/
def iterParent (snaps : List GSnapshot) (c : String) : Nat → Option String
  | 0 => some c
  | n + 1 => (iterParent snaps c n).bind (parentStep snaps)

/-- `sid` is reachable from `c` by following `parentId` links. -/
def ReachableFrom (snaps : List GSnapshot) (c sid : String) : Prop :=
  ∃ n, iterParent snaps c n = some sid

theorem iterParent_succ_left (snaps : List GSnapshot) (c : String) (n : Nat) :
    iterParent snaps c (n + 1) =
      match parentStep snaps c with
      | none => none
      | some p => iterParent snaps p n := by
  induction n with
  | zero =>
      show parentStep snaps c = _
      rcases h : parentStep snaps c with _ | p <;> rfl
  | succ n ih =>
      show (iterParent snaps c (n + 1)).bind (parentStep snaps) = _
      rw [ih]
      cases parentStep snaps c with
      | none => rfl
      | some p => rfl

theorem iterParent_none_absorb {snaps : List GSnapshot} {c : String} {n : Nat}
    (h : iterParent snaps c n = none) : ∀ m, iterParent snaps c (n + m) = none := by
  intro m
  induction m with
  | zero => exact h
  | succ m ih =>
      show (iterParent snaps c (n + m)).bind (parentStep snaps) = none
      rw [ih]
      rfl

theorem parentWalk_mem_iff (snaps : List GSnapshot) :
    ∀ (fuel : Nat) (c sid : String),
      sid ∈ parentWalk snaps fuel (some c) ↔ ∃ n < fuel, iterParent snaps c n = some sid := by
  intro fuel
  induction fuel with
  | zero =>
      intro c sid
      simp [parentWalk]
  | succ f ih =>
      intro c sid
      rcases hfind : snaps.find? (fun s => s.snapshotId = c) with _ | s
      · rw [parentWalk, hfind]
        constructor
        · intro h
          rcases List.mem_singleton.mp h with rfl
          exact ⟨0, Nat.succ_pos f, rfl⟩
        · rintro ⟨n, hn, hiter⟩
          cases n with
          | zero =>
              simp only [iterParent, Option.some.injEq] at hiter
              simp [hiter]
          | succ n =>
              rw [iterParent_succ_left] at hiter
              have : parentStep snaps c = none := by
                rw [parentStep, hfind]
                rfl
              rw [this] at hiter
              cases hiter
      · have hstep : parentStep snaps c = s.parentId := by
          rw [parentStep, hfind]
          rfl
        have hw : parentWalk snaps (f + 1) (some c) = c :: parentWalk snaps f s.parentId := by
          rw [parentWalk, hfind]
        rcases hpar : s.parentId with _ | p
        · rw [hw, hpar]
          constructor
          · intro h
            rcases List.mem_cons.mp h with rfl | h
            · exact ⟨0, Nat.succ_pos f, rfl⟩
            · simp [parentWalk] at h
          · rintro ⟨n, hn, hiter⟩
            cases n with
            | zero =>
                simp only [iterParent, Option.some.injEq] at hiter
                simp [hiter, parentWalk]
            | succ n =>
                rw [iterParent_succ_left, hstep, hpar] at hiter
                cases hiter
        · rw [hw, hpar]
          constructor
          · intro h
            rcases List.mem_cons.mp h with rfl | h
            · exact ⟨0, Nat.succ_pos f, rfl⟩
            · obtain ⟨n, hn, hiter⟩ := (ih p sid).mp h
              refine ⟨n + 1, Nat.succ_lt_succ hn, ?_⟩
              rw [iterParent_succ_left, hstep, hpar]
              exact hiter
          · rintro ⟨n, hn, hiter⟩
            cases n with
            | zero =>
                simp only [iterParent, Option.some.injEq] at hiter
                simp [hiter]
            | succ n =>
                rw [iterParent_succ_left, hstep, hpar] at hiter
                exact List.mem_cons_of_mem _ ((ih p sid).mpr ⟨n, Nat.lt_of_succ_lt_succ hn, hiter⟩)

/-! ### Claim C2 -/

/-- C2 (amended): a historical metadata node attaches exactly the snapshots
reachable by following `parentId` links from its `currentSnapshotId`
(provided the backward chain dies out within the 1000-iteration limit),
while the latest metadata node always attaches the whole snapshot list,
reachable or not. -/
theorem snapshots_attached_to_metadata (snaps : List GSnapshot) (c : String) (s : GSnapshot)
    (hterm : iterParent snaps c 1000 = none) :
    (s ∈ snapshotsForMetadata snaps false (some c) ↔
      s ∈ snaps ∧ ReachableFrom snaps c s.snapshotId)
  ∧ ∀ cid, snapshotsForMetadata snaps true cid = snaps := by
  constructor
  · show s ∈ snaps.filter _ ↔ _
    rw [List.mem_filter]
    simp only [decide_eq_true_eq]
    constructor
    · rintro ⟨hs, hmem⟩
      obtain ⟨n, _, hiter⟩ := (parentWalk_mem_iff snaps 1000 c s.snapshotId).mp hmem
      exact ⟨hs, n, hiter⟩
    · rintro ⟨hs, n, hiter⟩
      refine ⟨hs, (parentWalk_mem_iff snaps 1000 c s.snapshotId).mpr ⟨n, ?_, hiter⟩⟩
      by_contra hge
      push_neg at hge
      have := iterParent_none_absorb hterm (n - 1000)
      rw [show 1000 + (n - 1000) = n by omega] at this
      rw [this] at hiter
      cases hiter
  · intro cid
    rfl

/-- A first snapshot used in concrete tree inputs: no parent. -/
def treeSnap1 : GSnapshot :=
  { snapshotId := "1", timestamp := some 5, manifestList := "ml1", parentId := none }

/-- A second snapshot, unrelated to the first (no parent link between them). -/
def treeSnap2 : GSnapshot :=
  { snapshotId := "2", timestamp := some 9, manifestList := "ml2", parentId := none }

/-- C2 counterexample: with two unrelated snapshots and the latest metadata
file pointing at snapshot 1, the tree still attaches snapshot 2 to the
latest metadata node even though it is not reachable from the node's
`currentSnapshotId` — the claim fails for the latest node. -/
theorem snapshots_attached_counterexample :
    treeSnap2 ∈ snapshotsForMetadata [treeSnap1, treeSnap2] true (some "1")
  ∧ ¬ ReachableFrom [treeSnap1, treeSnap2] "1" "2" := by
  constructor
  · show treeSnap2 ∈ [treeSnap1, treeSnap2]
    simp
  · rintro ⟨n, hn⟩
    cases n with
    | zero => exact absurd hn (by decide)
    | succ n =>
        have h1 : iterParent [treeSnap1, treeSnap2] "1" 1 = none := by decide
        have h2 := iterParent_none_absorb h1 n
        rw [show 1 + n = n + 1 by omega] at h2
        rw [h2] at hn
        cases hn

/-- C2 witness: `snapshots_attached_to_metadata` applied to a one-snapshot
table whose historical metadata points at that snapshot. -/
theorem snapshots_attached_witness :
    treeSnap1 ∈ snapshotsForMetadata [treeSnap1] false (some "1") := by
  have hterm : iterParent [treeSnap1] "1" 1000 = none := by
    have h1 : iterParent [treeSnap1] "1" 1 = none := by decide
    have h2 := iterParent_none_absorb h1 999
    simpa using h2
  exact ((snapshots_attached_to_metadata [treeSnap1] "1" treeSnap1 hterm).1).mpr
    ⟨by simp, 0, by decide⟩

/-! ### Claim C6 -/

theorem parentWalk_length_le (snaps : List GSnapshot) :
    ∀ (fuel : Nat) (oc : Option String), (parentWalk snaps fuel oc).length ≤ fuel := by
  intro fuel
  induction fuel with
  | zero =>
      rintro (_ | c)
      · simp [parentWalk]
      · simp [parentWalk]
  | succ f ih =>
      rintro (_ | c)
      · simp [parentWalk]
      · rcases hfind : snaps.find? (fun s => s.snapshotId = c) with _ | s
        · rw [parentWalk, hfind]
          simp
        · have hw : parentWalk snaps (f + 1) (some c) =
              c :: parentWalk snaps f s.parentId := by
            rw [parentWalk, hfind]
          rw [hw, List.length_cons]
          exact Nat.succ_le_succ (ih s.parentId)

/-- C6: the backward walk from a historical metadata file's
`currentSnapshotId` always terminates: on a cycle it visits at most 1000
ids (the loop's iteration limit), and on a missing link it stops
immediately with just the dangling id. -/
theorem parent_walk_bounded (snaps : List GSnapshot) (c : String) :
    (parentWalk snaps 1000 (some c)).length ≤ 1000
  ∧ (snaps.find? (fun s => s.snapshotId = c) = none →
      parentWalk snaps 1000 (some c) = [c]) := by
  refine ⟨parentWalk_length_le snaps 1000 (some c), fun hmiss => ?_⟩
  rw [parentWalk, hmiss]

/-- C6 witness: the walk bound and the missing-link stop evaluated on an
empty snapshot list (every link is missing) and on a two-cycle. -/
theorem parent_walk_bounded_witness :
    (parentWalk [] 1000 (some "z")).length ≤ 1000
  ∧ parentWalk [] 1000 (some "z") = ["z"]
  ∧ (parentWalk
      [ { snapshotId := "a", timestamp := none, manifestList := "m", parentId := some "b" },
        { snapshotId := "b", timestamp := none, manifestList := "m", parentId := some "a" } ]
      1000 (some "a")).length ≤ 1000 :=
  ⟨(parent_walk_bounded [] "z").1, (parent_walk_bounded [] "z").2 rfl,
    (parent_walk_bounded _ "a").1⟩

/-! ### Claim C5 -/

/-- C5: the snapshot children rendered under a metadata node are sorted
ascending by parsed timestamp (stable sort of the attached snapshots), and
a snapshot with a missing timestamp has the minimal sort key, so it sorts
as oldest. -/
theorem snapshot_children_sorted (snaps : List GSnapshot) (isLatest : Bool)
    (cid : Option String) :
    (snapshotChildren snaps isLatest cid).Pairwise (fun a b => tsKey a ≤ tsKey b)
  ∧ (snapshotChildren snaps isLatest cid).Perm (snapshotsForMetadata snaps isLatest cid)
  ∧ ∀ s, s.timestamp = none → ∀ t, tsKey s ≤ tsKey t := by
  refine ⟨?_, ?_, ?_⟩
  · have h := @List.sorted_mergeSort GSnapshot
      (fun a b : GSnapshot => tsKey a ≤ tsKey b)
      (fun a b c hab hbc => by
        simp only [decide_eq_true_eq] at *
        omega)
      (fun a b => by
        simp only [Bool.or_eq_true, decide_eq_true_eq]
        omega)
      (snapshotsForMetadata snaps isLatest cid)
    exact h.imp (fun hab => by simpa using hab)
  · exact List.mergeSort_perm _ _
  · intro s hs t
    simp [tsKey, hs]

/-- C5 witness: sorting two concrete snapshots, one with a missing
timestamp, puts the missing-timestamp key first. -/
theorem snapshot_children_sorted_witness :
    (snapshotChildren [treeSnap1, treeSnap2] true none).Perm [treeSnap1, treeSnap2]
  ∧ tsKey { snapshotId := "0", timestamp := none, manifestList := "m", parentId := none } ≤
      tsKey treeSnap1 :=
  ⟨(snapshot_children_sorted [treeSnap1, treeSnap2] true none).2.1,
    (snapshot_children_sorted [treeSnap1, treeSnap2] true none).2.2 _ rfl treeSnap1⟩

/-! ## The HTTP id boundary (src/types/index.ts, IcebergTree GraphData)

`Snapshot.snapshotId` and `parentSnapshotId` are declared `string`
("String to preserve precision for large integers"), and
`TableMetadata.currentSnapshotId` is a string for real ids.  The
manifest entry of IcebergTree's `GraphData`, however, declares
`addedSnapshotId: number` — a JSON number is parsed into an IEEE-754
double, which rounds integers above 2^53.  `jsNumberOfNat` is that
rounding (round to nearest, ties to even) for nonnegative integers
below the overflow range. -/

/-- Number of binary digits of `n`; fuel-based so it reduces in the kernel. -/
def bitLenAux : Nat → Nat → Nat
  | 0, _ => 0
  | fuel + 1, n => if n = 0 then 0 else bitLenAux fuel (n / 2) + 1

/-- Number of binary digits of `n`. -/
def bitLen (n : Nat) : Nat := bitLenAux (n + 1) n

/-- The value a nonnegative integer becomes when stored in an IEEE-754
double (a JS `number`): exact up to 2^53, rounded to the nearest multiple
of 2^(bitLen n − 53) with ties to even above that. -/
def jsNumberOfNat (n : Nat) : Nat :=
  if n ≤ 2 ^ 53 then n
  else
    let p := 2 ^ (bitLen n - 53)
    let q := n / p
    let r := n % p
    if r < p / 2 then q * p
    else if p / 2 < r then (q + 1) * p
    else if q % 2 = 0 then q * p else (q + 1) * p

/-- A snapshot id rendered into a string-typed JSON field (exact decimal). -/
def encodeId (n : Nat) : String := ⟨natDigits n⟩

/-- Reading a decimal id string back into an integer. -/
def decodeId (s : String) : Nat := decVal s.data

/-- The manifest entry of IcebergTree's `GraphData` (the fields declared
in the interface; `addedSnapshotId` is `number`-typed). -/
structure GManifest where
  path : String
  length : Nat
  partitionSpecId : Int
  addedSnapshotId : Nat
deriving DecidableEq

/-- JSON-decoding a manifest entry of the analyze response into `GraphData`:
the `number`-typed `addedSnapshotId` passes through IEEE double parsing,
so the wire value is rounded by `jsNumberOfNat`. -/
def decodeManifestEntry (path : String) (length wireAddedSnapshotId : Nat)
    (partitionSpecId : Int) : GManifest :=
  { path := path, length := length, partitionSpecId := partitionSpecId,
    addedSnapshotId := jsNumberOfNat wireAddedSnapshotId }

/-- C7 counterexample: the 64-bit id 2^53 + 1 carried in the
`number`-typed `addedSnapshotId` field of the manifest-list entry is
silently rounded to 2^53 — string-typed id fields are unaffected. -/
theorem addedSnapshotId_truncation_counterexample :
    (decodeManifestEntry "m.avro" 10 9007199254740993 0).addedSnapshotId = 9007199254740992
  ∧ (9007199254740993 : Nat) ≠ 9007199254740992
  ∧ (9007199254740993 : Nat) < 2 ^ 64 := by
  refine ⟨by decide, by decide, by decide⟩

/-- C7 (amended): `snapshotId`, `parentSnapshotId` and `currentSnapshotId`
cross the HTTP boundary in string-typed fields and round-trip exactly for
every 64-bit value, but the manifest-list entry's `addedSnapshotId` is a
`number`-typed field and is only guaranteed exact for ids up to 2^53. -/
theorem id_string_roundtrip_and_number_precision (n : Nat) :
    decodeId (encodeId n) = n
  ∧ (n ≤ 2 ^ 53 → (decodeManifestEntry "m" 0 n 0).addedSnapshotId = n) := by
  constructor
  · exact decVal_natDigits n
  · intro h
    show jsNumberOfNat n = n
    rw [jsNumberOfNat, if_pos h]

/-- C7 witness: a 20-digit 64-bit id round-trips through the string
encoding, and 2^53 itself survives the `number`-typed field. -/
theorem id_string_roundtrip_witness :
    decodeId (encodeId 18446744073709551615) = 18446744073709551615
  ∧ (decodeManifestEntry "m" 0 9007199254740992 0).addedSnapshotId = 9007199254740992 :=
  ⟨(id_string_roundtrip_and_number_precision 18446744073709551615).1,
    (id_string_roundtrip_and_number_precision 9007199254740992).2 (by decide)⟩

/-! ## SnapshotDiffEngine (spec §4.5)

The backend that computes `/snapshot/compare` is not among the sources
under src/ (only the SnapshotComparison type and the view consuming it
are), so the diff is modelled from the spec. -/

/-- Per-snapshot statistics of a comparison. -/
structure DiffStats where
  fileCount : Nat
  recordCount : Nat
  totalSize : Nat
deriving DecidableEq

/-- The delta block of a comparison (B-stats − A-stats). -/
structure DiffDelta where
  files : Int
  records : Int
  size : Int
deriving DecidableEq

/-- A snapshot comparison result (the SnapshotComparison shape of
types/index.ts restricted to the fields the diff algorithm determines). -/
structure SnapshotDiff where
  addedFiles : List DataFile
  removedFiles : List DataFile
  modifiedFiles : List (String × DataFile × DataFile)
  stats1 : DiffStats
  stats2 : DiffStats
  delta : DiffDelta
deriving DecidableEq

/-- Modelled from the spec: the SnapshotDiffEngine of §4.5 — its backend
implementation is not among the frontend sources under src/.  `a` and `b`
are the path-keyed data-file sets of the two snapshots; addedFiles = B − A
by path, removedFiles = A − B by path, modifiedFiles = paths present in
both whose size or record count differ (paired with the before and after
entries), statistics are computed from each set, and the delta is
B-stats − A-stats. -/
def snapshotDiff (a b : List DataFile) : SnapshotDiff :=
  { addedFiles := b.filter (fun f => ¬ a.any (fun g => g.filePath = f.filePath)),
    removedFiles := a.filter (fun f => ¬ b.any (fun g => g.filePath = f.filePath)),
    modifiedFiles := b.filterMap (fun f =>
      match a.find? (fun g => g.filePath = f.filePath) with
      | some g =>
          if g.fileSizeInBytes ≠ f.fileSizeInBytes ∨ g.recordCount ≠ f.recordCount then
            some (f.filePath, g, f)
          else none
      | none => none),
    stats1 := ⟨a.length, (a.map (·.recordCount)).sum, (a.map (·.fileSizeInBytes)).sum⟩,
    stats2 := ⟨b.length, (b.map (·.recordCount)).sum, (b.map (·.fileSizeInBytes)).sum⟩,
    delta := ⟨(b.length : Int) - (a.length : Int),
      ((b.map (·.recordCount)).sum : Int) - ((a.map (·.recordCount)).sum : Int),
      ((b.map (·.fileSizeInBytes)).sum : Int) - ((a.map (·.fileSizeInBytes)).sum : Int)⟩ }

theorem find?_path_self {a : List DataFile} (hnodup : (a.map (·.filePath)).Nodup) :
    ∀ f ∈ a, a.find? (fun g => g.filePath = f.filePath) = some f := by
  induction a with
  | nil => intro f hf; cases hf
  | cons x xs ih =>
      intro f hf
      simp only [List.map_cons, List.nodup_cons] at hnodup
      rcases List.mem_cons.mp hf with rfl | hf'
      · rw [List.find?_cons]
        simp
      · have hx : ¬ (x.filePath = f.filePath) := by
          intro hc
          exact hnodup.1 (hc ▸ List.mem_map_of_mem (·.filePath) hf')
        rw [List.find?_cons, decide_eq_false hx]
        exact ih hnodup.2 f hf'

/-- C8: comparing a snapshot's path-keyed file set with itself yields empty
added, removed, and modified lists and an all-zero delta. -/
theorem snapshotDiff_self (a : List DataFile)
    (hnodup : (a.map (·.filePath)).Nodup) :
    (snapshotDiff a a).addedFiles = []
  ∧ (snapshotDiff a a).removedFiles = []
  ∧ (snapshotDiff a a).modifiedFiles = []
  ∧ (snapshotDiff a a).delta = ⟨0, 0, 0⟩ := by
  have hany : ∀ f ∈ a, a.any (fun g => g.filePath = f.filePath) = true := by
    intro f hf
    rw [List.any_eq_true]
    exact ⟨f, hf, by simp⟩
  refine ⟨?_, ?_, ?_, ?_⟩
  · show a.filter _ = []
    rw [List.filter_eq_nil_iff]
    intro f hf
    simp [hany f hf]
  · show a.filter _ = []
    rw [List.filter_eq_nil_iff]
    intro f hf
    simp [hany f hf]
  · show a.filterMap _ = []
    rw [List.filterMap_eq_nil_iff]
    intro f hf
    rw [find?_path_self hnodup f hf]
    simp
  · show DiffDelta.mk _ _ _ = _
    simp

/-- A concrete one-file snapshot set for the C8 witness. -/
def c8Files : List DataFile :=
  [ { filePath := "data/x.parquet", fileFormat := "parquet", partition := [],
      recordCount := 7, fileSizeInBytes := 70 } ]

/-- C8 witness: `diff(A, A)` evaluated on a concrete one-file snapshot. -/
theorem snapshotDiff_self_witness :
    (snapshotDiff c8Files c8Files).addedFiles = []
  ∧ (snapshotDiff c8Files c8Files).removedFiles = []
  ∧ (snapshotDiff c8Files c8Files).modifiedFiles = []
  ∧ (snapshotDiff c8Files c8Files).delta = ⟨0, 0, 0⟩ :=
  snapshotDiff_self c8Files (by decide)

/-! ## SnapshotComparisonView request guard
(src/components/SnapshotComparisonView.tsx lines 37–45) -/

/-- The selection state of the comparison view. -/
structure CompareState where
  snapshot1Id : Option String
  snapshot2Id : Option String
deriving DecidableEq

/-- The id parameters of a `/snapshot/compare` request. -/
structure CompareParams where
  snapshot_id_1 : String
  snapshot_id_2 : String
deriving DecidableEq

/-- JS truthiness of a nullable string: null and the empty string are falsy. -/
def jsTruthy : Option String → Bool
  | none => false
  | some s => decide (s ≠ "")

/-- The comparison-loading effect: call `loadComparison` only when
`snapshot2Id` is truthy and `snapshot1Id !== snapshot2Id`;
`loadComparison` re-checks `!snapshot2Id` and sends
`snapshot_id_1 = snapshot1Id || ''` and `snapshot_id_2 = snapshot2Id`. -/
def compareRequest (st : CompareState) : Option CompareParams :=
  if jsTruthy st.snapshot2Id && decide (st.snapshot1Id ≠ st.snapshot2Id) then
    match st.snapshot2Id with
    | none => none
    | some s2 =>
        if s2 = "" then none
        else some ⟨st.snapshot1Id.getD "", s2⟩
  else none

/-- C9: a compare request is issued only when a target snapshot is selected
(`snapshot2Id` truthy) and the selected base differs from the target; in
particular the issued request never carries two equal snapshot ids. -/
theorem compareRequest_guard (st : CompareState) (req : CompareParams)
    (h : compareRequest st = some req) :
    st.snapshot2Id = some req.snapshot_id_2
  ∧ req.snapshot_id_2 ≠ ""
  ∧ st.snapshot1Id ≠ st.snapshot2Id
  ∧ req.snapshot_id_1 ≠ req.snapshot_id_2 := by
  rcases hs2 : st.snapshot2Id with _ | s2
  · have hn : compareRequest st = none := by
      unfold compareRequest
      rw [hs2]
      simp [jsTruthy]
    rw [hn] at h
    cases h
  · by_cases hempty : s2 = ""
    · subst hempty
      have hn : compareRequest st = none := by
        unfold compareRequest
        rw [hs2]
        simp [jsTruthy]
      rw [hn] at h
      cases h
    · by_cases hne : st.snapshot1Id ≠ some s2
      · have hc : compareRequest st = some ⟨st.snapshot1Id.getD "", s2⟩ := by
          unfold compareRequest
          rw [hs2]
          have hcond : (jsTruthy (some s2) && decide (st.snapshot1Id ≠ some s2)) = true := by
            simp [jsTruthy, hempty, hne]
          rw [hcond]
          simp [hempty]
        rw [hc] at h
        cases h
        refine ⟨rfl, hempty, hne, ?_⟩
        rcases hs1 : st.snapshot1Id with _ | s1
        · show (none : Option String).getD "" ≠ s2
          exact fun hcon => hempty hcon.symm
        · show (some s1).getD "" ≠ s2
          intro hcon
          rw [hs1] at hne
          simp only [Option.getD_some] at hcon
          rw [hcon] at hne
          exact hne rfl
      · push_neg at hne
        have hn : compareRequest st = none := by
          unfold compareRequest
          rw [hs2, hne]
          simp
        rw [hn] at h
        cases h


/-- The concrete selection state for the C9 witness. -/
def c9State : CompareState := { snapshot1Id := some "101", snapshot2Id := some "202" }

/-- The request `compareRequest` issues for `c9State`. -/
def c9Req : CompareParams := { snapshot_id_1 := "101", snapshot_id_2 := "202" }

/-- C9 witness: the guard conclusions evaluated on a concrete state whose
base and target snapshots differ. -/
theorem compareRequest_guard_witness :
    c9State.snapshot2Id = some c9Req.snapshot_id_2
  ∧ c9Req.snapshot_id_2 ≠ ""
  ∧ c9State.snapshot1Id ≠ c9State.snapshot2Id
  ∧ c9Req.snapshot_id_1 ≠ c9Req.snapshot_id_2 :=
  compareRequest_guard c9State c9Req (by decide)

/-! ## StatsView averages (src/components/StatsView.tsx lines 20-23) -/

/-- A JS number as produced by dividing aggregates: a finite value, NaN,
or a signed infinity (IEEE rounding of finite quotients is abstracted to
the exact rational). -/
inductive JsNum where
  | num (q : ℚ)
  | nan
  | inf
  | ninf
deriving DecidableEq

/-- JS division for nonnegative integer numerator and denominator:
`0 / 0` is NaN, `x / 0` is Infinity for `x ≠ 0`, otherwise the quotient. -/
def jsDivNat (a b : Nat) : JsNum :=
  if b = 0 then (if a = 0 then JsNum.nan else JsNum.inf)
  else JsNum.num ((a : ℚ) / (b : ℚ))

/-- The slice of TableMetadata that StatsView's aggregates read. -/
structure TableMetadataLite where
  dataFiles : List DataFile
deriving DecidableEq

/-- `totalSize` of StatsView: reduce of `fileSizeInBytes` over `dataFiles`. -/
def statsTotalSize (metadata : TableMetadataLite) : Nat :=
  (metadata.dataFiles.map (·.fileSizeInBytes)).sum

/-- `totalRecords` of StatsView: reduce of `recordCount` over `dataFiles`. -/
def statsTotalRecords (metadata : TableMetadataLite) : Nat :=
  (metadata.dataFiles.map (·.recordCount)).sum

/-- `avgFileSize = totalSize / metadata.dataFiles.length` — no emptiness guard. -/
def avgFileSize (metadata : TableMetadataLite) : JsNum :=
  jsDivNat (statsTotalSize metadata) metadata.dataFiles.length

/-- `avgRecordsPerFile = totalRecords / metadata.dataFiles.length` — no emptiness guard. -/
def avgRecordsPerFile (metadata : TableMetadataLite) : JsNum :=
  jsDivNat (statsTotalRecords metadata) metadata.dataFiles.length

/-- C10: with an empty `dataFiles` list both StatsView averages divide 0 by 0
and evaluate to NaN; with a non-empty list both are finite numbers, so the
averages are well-defined exactly under the non-emptiness precondition. -/
theorem statsView_avg_nan_on_empty (metadata : TableMetadataLite) :
    (metadata.dataFiles = [] →
      avgFileSize metadata = JsNum.nan ∧ avgRecordsPerFile metadata = JsNum.nan)
  ∧ (metadata.dataFiles ≠ [] →
      (∃ q, avgFileSize metadata = JsNum.num q)
    ∧ (∃ q, avgRecordsPerFile metadata = JsNum.num q)) := by
  constructor
  · intro h
    constructor <;>
      simp [avgFileSize, avgRecordsPerFile, statsTotalSize, statsTotalRecords, jsDivNat, h]
  · intro h
    have hlen : metadata.dataFiles.length ≠ 0 := by
      have := List.length_pos.mpr h
      omega
    refine ⟨⟨(statsTotalSize metadata : ℚ) / (metadata.dataFiles.length : ℚ), ?_⟩,
      ⟨(statsTotalRecords metadata : ℚ) / (metadata.dataFiles.length : ℚ), ?_⟩⟩ <;>
      simp [avgFileSize, avgRecordsPerFile, jsDivNat, hlen]

/-- C10 witness: a table with zero data files yields NaN averages, and a
one-file table yields finite averages. -/
theorem statsView_avg_nan_witness :
    (avgFileSize { dataFiles := [] } = JsNum.nan
      ∧ avgRecordsPerFile { dataFiles := [] } = JsNum.nan)
  ∧ ((∃ q, avgFileSize { dataFiles := c8Files } = JsNum.num q)
      ∧ (∃ q, avgRecordsPerFile { dataFiles := c8Files } = JsNum.num q)) :=
  ⟨(statsView_avg_nan_on_empty { dataFiles := [] }).1 rfl,
    (statsView_avg_nan_on_empty { dataFiles := c8Files }).2 (by decide)⟩

end IcebergExplorer
